/-
Verification of the isograph client runtime: normalized store, normalizer,
reader, fetch cache, retention / garbage collection, and the public hook
layer (entrypoint assertion, lazy fragment references, link resolution).

The repository ships the entrypoint type module and the index module
(useLazyReference, useResult, assertLink) together with compiler-generated
artifacts.  The engine modules they import (cache, read, normalization,
garbage collection, environment) are specified in the design document;
those parts are modelled here from the specification text and marked as
such in their doc comments.
-/
import Mathlib

set_option maxHeartbeats 1000000

/-! ## Data identifiers and the record store -/

/-- An opaque string uniquely identifying one logical entity in the graph. -/
abbrev DataId := String

/-- Modelled from the spec: the distinguished identifier for top-level
(query-root) reads.  The constant lives in the environment module, which is
not part of the sources; the spec only requires it to be one fixed id. -/
def ROOT_ID : DataId := "ROOT"

/-- A field-storage-key: field name plus the resolved argument pairs, so
differently-argumented reads of the same field occupy distinct slots. -/
structure StorageKey where
  field : String
  args : List (String × String)
deriving DecidableEq, Repr

/-- Modelled from the spec: a value held in one record slot — a scalar, an
explicit missing/null marker, a link, or an ordered list of links. -/
inductive StoreValue where
  | scalar (s : String)
  | null
  | link (id : DataId)
  | links (ids : List DataId)
deriving DecidableEq, Repr

/-- A record maps storage keys to stored values; absent keys are fields the
store has never seen. -/
abbrev StoreRecord := StorageKey → Option StoreValue

/-- Modelled from the spec: the normalized graph, a mapping from entity
identifier to entity record. -/
abbrev IsographStore := DataId → Option StoreRecord

def emptyStore : IsographStore := fun _ => none

/-- One slot write: entity id, storage key and the value to store. -/
structure WriteOp where
  id : DataId
  key : StorageKey
  value : StoreValue
deriving DecidableEq, Repr

/-- Modelled from the spec: `write(id, key, value)` — writing a field slot
replaces the previous value for that exact slot, creating the record on its
first write. -/
def writeSlot (s : IsographStore) (w : WriteOp) : IsographStore :=
  fun i =>
    if i = w.id then
      let r : StoreRecord := (s w.id).getD (fun _ => none)
      some (fun k => if k = w.key then some w.value else r k)
    else s i

/-- Apply a depth-first sequence of slot writes, in order. -/
def applyWrites (ws : List WriteOp) (s : IsographStore) : IsographStore :=
  ws.foldl writeSlot s

/-- The value currently stored at one slot. -/
def slotVal (s : IsographStore) (id : DataId) (k : StorageKey) : Option StoreValue :=
  (s id).bind (fun r => r k)

/-- The value of the last write a write sequence performs on one slot. -/
def lastWriteTo (ws : List WriteOp) (id : DataId) (k : StorageKey) : Option StoreValue :=
  ws.foldl (fun acc w => if w.id = id ∧ w.key = k then some w.value else acc) none

/-- Whether a write sequence touches a record id at all. -/
def touchesId (ws : List WriteOp) (id : DataId) : Bool :=
  ws.any (fun w => w.id == id)

/-! ## Normalization and reader specifications (types from entrypoint.ts) -/

/-- An argument value, either a variable reference or a literal
(entrypoint.ts, `ArgumentValue`; literals modelled as strings). -/
inductive ArgumentValue where
  | variable (name : String)
  | literal (value : String)
deriving DecidableEq, Repr

/-- Named arguments of a field (entrypoint.ts, `Arguments`). -/
abbrev Arguments := List (String × ArgumentValue)

/-- Variable bindings supplied with a request. -/
abbrev Variables := List (String × String)

/-- A normalization AST node (entrypoint.ts, `NormalizationAstNode`):
a scalar field or a linked field with nested selections. -/
inductive NormalizationAstNode where
  | scalar (fieldName : String) (arguments : Option Arguments)
  | linked (fieldName : String) (arguments : Option Arguments)
      (selections : List NormalizationAstNode)
deriving Repr

/-- A normalization AST (entrypoint.ts, `NormalizationAst`). -/
abbrev NormalizationAst := List NormalizationAstNode

/-- Look up an association-list key. -/
def alistLookup {β : Type} (l : List (String × β)) (k : String) : Option β :=
  match l with
  | [] => none
  | (k₂, v) :: rest => if k₂ = k then some v else alistLookup rest k

/-- Resolve one argument value against the current variables. -/
def resolveArgumentValue (vars : Variables) : ArgumentValue → String
  | .variable n => (alistLookup vars n).getD ""
  | .literal v => v

/-- Modelled from the spec: compute the storage key of a field — the field
name plus the resolved argument pairs. -/
def storageKey (vars : Variables) (fieldName : String)
    (arguments : Option Arguments) : StorageKey :=
  ⟨fieldName, (arguments.getD []).map (fun p => (p.1, resolveArgumentValue vars p.2))⟩

/-- Serialize a storage key for positional id derivation. -/
def keyString (k : StorageKey) : String :=
  k.field ++ String.join (k.args.map (fun p => "____" ++ p.1 ++ "___" ++ p.2))

/-! ## Network responses and normalization -/

/-- A JSON-like response value tree as returned by the network. -/
inductive ResponseValue where
  | null
  | scalar (s : String)
  | obj (fields : List (String × ResponseValue))
  | arr (elems : List ResponseValue)

/-- Modelled from the spec: resolve or synthesize an entity id for a child
object — prefer a declared identity field, else derive from the parent id
and the position (storage key, with the element index for list members). -/
def resolveId (parentId : DataId) (suffix : String)
    (fields : List (String × ResponseValue)) : DataId :=
  match alistLookup fields "id" with
  | some (.scalar s) => s
  | _ => parentId ++ "." ++ suffix

/-- Pair each object element of a linked list value with its resolved
entity id; non-object elements are malformed and contribute nothing. -/
def elemPairs (parentId : DataId) (base : String) (idx : Nat) :
    List ResponseValue → List (DataId × List (String × ResponseValue))
  | [] => []
  | .obj cf :: es =>
      (resolveId parentId (base ++ "." ++ toString idx) cf, cf)
        :: elemPairs parentId base (idx + 1) es
  | _ :: es => elemPairs parentId base (idx + 1) es

mutual

/-- Modelled from the spec: the depth-first normalization walk, emitting
the sequence of slot writes for one spec node against one response object.
Scalar nodes write the scalar or the missing marker; linked nodes recurse
into the child entity first and then write the link on the parent; shape
mismatches produce no write for that subtree. -/
def collectNode (vars : Variables) :
    NormalizationAstNode → DataId → List (String × ResponseValue) → List WriteOp
  | .scalar f args => fun id fields =>
      let k := storageKey vars f args
      match alistLookup fields f with
      | some (.scalar s) => [⟨id, k, .scalar s⟩]
      | some .null => [⟨id, k, .null⟩]
      | none => [⟨id, k, .null⟩]
      | some (.obj _) => []
      | some (.arr _) => []
  | .linked f args sels => fun id fields =>
      let k := storageKey vars f args
      let handler := collectNodes vars sels
      match alistLookup fields f with
      | some (.obj cf) =>
          let cid := resolveId id (keyString k) cf
          handler cid cf ++ [⟨id, k, .link cid⟩]
      | some (.arr es) =>
          let ps := elemPairs id (keyString k) 0 es
          (ps.map (fun p => handler p.1 p.2)).flatten
            ++ [⟨id, k, .links (ps.map (fun p => p.1))⟩]
      | some .null => [⟨id, k, .null⟩]
      | none => [⟨id, k, .null⟩]
      | some (.scalar _) => []

/-- Writes of a selection list, in source order. -/
def collectNodes (vars : Variables) :
    List NormalizationAstNode → DataId → List (String × ResponseValue) → List WriteOp
  | [] => fun _ _ => []
  | n :: rest => fun id fields =>
      collectNode vars n id fields ++ collectNodes vars rest id fields

end

/-- Modelled from the spec: normalize a response object against a
normalization AST into the store, starting at the query root. -/
def normalizeResponse (vars : Variables) (ast : NormalizationAst)
    (fields : List (String × ResponseValue)) (s : IsographStore) : IsographStore :=
  applyWrites (collectNodes vars ast ROOT_ID fields) s

/-! ## The reader -/

/-- A value in the result tree the reader produces. -/
inductive ReadResult where
  | null
  | scalar (s : String)
  | link (id : DataId)
  | obj (fields : List (String × ReadResult))
  | arr (elems : List ReadResult)

mutual

/-- Decidable equality on result trees. -/
def readResultDecEq : (a b : ReadResult) → Decidable (a = b)
  | .null, .null => .isTrue rfl
  | .null, .scalar _ => .isFalse (fun h => nomatch h)
  | .null, .link _ => .isFalse (fun h => nomatch h)
  | .null, .obj _ => .isFalse (fun h => nomatch h)
  | .null, .arr _ => .isFalse (fun h => nomatch h)
  | .scalar _, .null => .isFalse (fun h => nomatch h)
  | .scalar a, .scalar b =>
      match decEq a b with
      | .isTrue h => .isTrue (by rw [h])
      | .isFalse h => .isFalse (by intro hh; cases hh; exact h rfl)
  | .scalar _, .link _ => .isFalse (fun h => nomatch h)
  | .scalar _, .obj _ => .isFalse (fun h => nomatch h)
  | .scalar _, .arr _ => .isFalse (fun h => nomatch h)
  | .link _, .null => .isFalse (fun h => nomatch h)
  | .link _, .scalar _ => .isFalse (fun h => nomatch h)
  | .link a, .link b =>
      match decEq a b with
      | .isTrue h => .isTrue (by rw [h])
      | .isFalse h => .isFalse (by intro hh; cases hh; exact h rfl)
  | .link _, .obj _ => .isFalse (fun h => nomatch h)
  | .link _, .arr _ => .isFalse (fun h => nomatch h)
  | .obj _, .null => .isFalse (fun h => nomatch h)
  | .obj _, .scalar _ => .isFalse (fun h => nomatch h)
  | .obj _, .link _ => .isFalse (fun h => nomatch h)
  | .obj a, .obj b =>
      match readResultFieldsDecEq a b with
      | .isTrue h => .isTrue (by rw [h])
      | .isFalse h => .isFalse (by intro hh; cases hh; exact h rfl)
  | .obj _, .arr _ => .isFalse (fun h => nomatch h)
  | .arr _, .null => .isFalse (fun h => nomatch h)
  | .arr _, .scalar _ => .isFalse (fun h => nomatch h)
  | .arr _, .link _ => .isFalse (fun h => nomatch h)
  | .arr _, .obj _ => .isFalse (fun h => nomatch h)
  | .arr a, .arr b =>
      match readResultElemsDecEq a b with
      | .isTrue h => .isTrue (by rw [h])
      | .isFalse h => .isFalse (by intro hh; cases hh; exact h rfl)

/-- Decidable equality on result field lists. -/
def readResultFieldsDecEq :
    (a b : List (String × ReadResult)) → Decidable (a = b)
  | [], [] => .isTrue rfl
  | [], _ :: _ => .isFalse (fun h => nomatch h)
  | _ :: _, [] => .isFalse (fun h => nomatch h)
  | (k₁, v₁) :: r₁, (k₂, v₂) :: r₂ =>
      match decEq k₁ k₂, readResultDecEq v₁ v₂, readResultFieldsDecEq r₁ r₂ with
      | .isTrue h₁, .isTrue h₂, .isTrue h₃ => .isTrue (by rw [h₁, h₂, h₃])
      | .isFalse h, _, _ => .isFalse (by intro hh; cases hh; exact h rfl)
      | _, .isFalse h, _ => .isFalse (by intro hh; cases hh; exact h rfl)
      | _, _, .isFalse h => .isFalse (by intro hh; cases hh; exact h rfl)

/-- Decidable equality on result element lists. -/
def readResultElemsDecEq : (a b : List ReadResult) → Decidable (a = b)
  | [], [] => .isTrue rfl
  | [], _ :: _ => .isFalse (fun h => nomatch h)
  | _ :: _, [] => .isFalse (fun h => nomatch h)
  | a :: as, b :: bs =>
      match readResultDecEq a b, readResultElemsDecEq as bs with
      | .isTrue h₁, .isTrue h₂ => .isTrue (by rw [h₁, h₂])
      | .isFalse h, _ => .isFalse (by intro hh; cases hh; exact h rfl)
      | _, .isFalse h => .isFalse (by intro hh; cases hh; exact h rfl)

end

instance : DecidableEq ReadResult := readResultDecEq

/-- Modelled from the spec: the reader error taxonomy relevant to reads —
missing data identifying the first missing path, and an invalid link. -/
inductive ReadError where
  | missingData (path : String)
  | invalidLink
deriving DecidableEq, Repr

/-- Render a path for a MissingData report. -/
def pathString (path : List String) : String :=
  String.intercalate "." path

/-- Modelled from the spec: reader AST nodes (reader.ts is not among the
sources) — scalar fields, linked fields with nested selections, and
resolver nodes delegating a sub-result to an externally supplied pure
transform, tagged with a variant the reader ignores. -/
inductive ReaderAstNode where
  | scalar (fieldName : String) (arguments : Option Arguments)
  | linked (fieldName : String) (arguments : Option Arguments)
      (selections : List ReaderAstNode)
  | resolver (aliasName : String) (variant : String)
      (selections : List ReaderAstNode) (transform : ReadResult → ReadResult)

abbrev ReaderAst := List ReaderAstNode

/-- Evaluate a list of links with a supplied reader for one id, preserving
source order and short-circuiting on the first error. -/
def readLinkList (reader : DataId → Except ReadError (List (String × ReadResult))) :
    List DataId → Except ReadError (List ReadResult)
  | [] => .ok []
  | cid :: rest =>
      match reader cid with
      | .error e => .error e
      | .ok child =>
          match readLinkList reader rest with
          | .error e => .error e
          | .ok out => .ok (ReadResult.obj child :: out)

mutual

/-- Modelled from the spec: depth-first evaluation of one reader AST node
against the store.  A missing slot fails with the first missing path;
stored values are otherwise inserted verbatim; a scalar stored where a link
is required is an invalid link, reported at resolve time. -/
def readNode (store : IsographStore) (vars : Variables) :
    ReaderAstNode → DataId → List String → Except ReadError (String × ReadResult)
  | .scalar f args => fun id path =>
      let k := storageKey vars f args
      match slotVal store id k with
      | none => .error (.missingData (pathString (path ++ [f])))
      | some .null => .ok (f, .null)
      | some (.scalar s) => .ok (f, .scalar s)
      | some (.link cid) => .ok (f, .link cid)
      | some (.links cids) => .ok (f, .arr (cids.map ReadResult.link))
  | .linked f args sels => fun id path =>
      let k := storageKey vars f args
      let handler := readNodes store vars sels
      match slotVal store id k with
      | none => .error (.missingData (pathString (path ++ [f])))
      | some .null => .ok (f, .null)
      | some (.link cid) =>
          match handler cid (path ++ [f]) with
          | .ok child => .ok (f, .obj child)
          | .error e => .error e
      | some (.links cids) =>
          match readLinkList (fun cid => handler cid (path ++ [f])) cids with
          | .ok children => .ok (f, .arr children)
          | .error e => .error e
      | some (.scalar _) => .error .invalidLink
  | .resolver name _ sels transform => fun id path =>
      match readNodes store vars sels id path with
      | .ok sub => .ok (name, transform (.obj sub))
      | .error e => .error e

/-- Evaluate a selection list in source order, short-circuiting on the
first error, so no partial result is returned on failure. -/
def readNodes (store : IsographStore) (vars : Variables) :
    List ReaderAstNode → DataId → List String → Except ReadError (List (String × ReadResult))
  | [] => fun _ _ => .ok []
  | n :: rest => fun id path =>
      match readNode store vars n id path with
      | .error e => .error e
      | .ok entry =>
          match readNodes store vars rest id path with
          | .error e => .error e
          | .ok entries => .ok (entry :: entries)

end

/-- Modelled from the spec: evaluate a read spec from the query root. -/
def readQuery (store : IsographStore) (vars : Variables) (ast : ReaderAst) :
    Except ReadError (List (String × ReadResult)) :=
  readNodes store vars ast ROOT_ID []

mutual

/-- The read spec corresponding to a normalization spec node: the same
scalar/linked tree. -/
def readSpecOfNode : NormalizationAstNode → ReaderAstNode
  | .scalar f args => .scalar f args
  | .linked f args sels => .linked f args (readSpecOf sels)

/-- The read spec corresponding to a normalization spec. -/
def readSpecOf : List NormalizationAstNode → List ReaderAstNode
  | [] => []
  | n :: rest => readSpecOfNode n :: readSpecOf rest

end

mutual

/-- Stated from the round-trip claim text, for comparison with the reader:
project one response field onto the shape named by the spec node, taking
values directly from the response tree. -/
def projectNode : NormalizationAstNode → List (String × ResponseValue) → String × ReadResult
  | .scalar f _ => fun fields =>
      match alistLookup fields f with
      | some (.scalar s) => (f, .scalar s)
      | _ => (f, .null)
  | .linked f _ sels => fun fields =>
      let handler := projectNodes sels
      match alistLookup fields f with
      | some (.obj cf) => (f, .obj (handler cf))
      | some (.arr es) =>
          (f, .arr (es.map (fun e =>
            match e with
            | .obj cf => ReadResult.obj (handler cf)
            | _ => ReadResult.null)))
      | _ => (f, .null)

/-- Project a response object onto exactly the fields named in the spec. -/
def projectNodes : List NormalizationAstNode → List (String × ResponseValue) → List (String × ReadResult)
  | [] => fun _ => []
  | n :: rest => fun fields => projectNode n fields :: projectNodes rest fields

end

mutual

/-- Shape validation of a response value tree against one spec node:
scalars may be scalar, null or absent; linked fields may be an object, a
list of objects, null or absent. -/
def validatesNode : NormalizationAstNode → List (String × ResponseValue) → Bool
  | .scalar f _ => fun fields =>
      match alistLookup fields f with
      | some (.scalar _) => true
      | some .null => true
      | none => true
      | some (.obj _) => false
      | some (.arr _) => false
  | .linked f _ sels => fun fields =>
      let handler := validatesNodes sels
      match alistLookup fields f with
      | some (.obj cf) => handler cf
      | some (.arr es) =>
          es.all (fun e =>
            match e with
            | .obj cf => handler cf
            | _ => false)
      | some .null => true
      | none => true
      | some (.scalar _) => false

/-- Shape validation of a response object against a spec. -/
def validatesNodes : List NormalizationAstNode → List (String × ResponseValue) → Bool
  | [] => fun _ => true
  | n :: rest => fun fields => validatesNode n fields && validatesNodes rest fields

end

instance {ε α : Type} [DecidableEq ε] [DecidableEq α] : DecidableEq (Except ε α)
  | .ok a, .ok b =>
      if h : a = b then .isTrue (by rw [h]) else .isFalse (by intro hh; cases hh; exact h rfl)
  | .error a, .error b =>
      if h : a = b then .isTrue (by rw [h]) else .isFalse (by intro hh; cases hh; exact h rfl)
  | .ok _, .error _ => .isFalse (by intro hh; cases hh)
  | .error _, .ok _ => .isFalse (by intro hh; cases hh)

/-- The slots (id and key pairs) a write sequence touches, in order. -/
def slotsOf (ws : List WriteOp) : List (DataId × StorageKey) :=
  ws.map (fun w => (w.id, w.key))

/-! ## Fetch cache (modelled from the spec) -/

/-- Modelled from the spec: the three observable states of the
suspension-aware asynchronous wrapper (PromiseWrapper.ts is not among the
sources).  A resolved wrapper carries the read spec entry root id. -/
inductive PromiseState where
  | pending
  | resolved (rootId : DataId)
  | rejected (message : String)
deriving DecidableEq, Repr

/-- Insert one variable binding into a list sorted by name. -/
def insertVarSorted (p : String × String) :
    List (String × String) → List (String × String)
  | [] => [p]
  | q :: rest => if p.1 ≤ q.1 then p :: q :: rest else q :: insertVarSorted p rest

/-- Modelled from the spec: canonicalize a variable set by ordering the
name/value pairs, so two mappings with the same entries in different
construction order collide correctly. -/
def canonicalizeVariables (vars : Variables) : Variables :=
  vars.foldr insertVarSorted []

/-- A fetch cache key: artifact identity plus canonicalized variables. -/
structure CacheKey where
  artifactId : String
  variableBindings : Variables
deriving DecidableEq, Repr

def cacheKey (artifactId : String) (vars : Variables) : CacheKey :=
  ⟨artifactId, canonicalizeVariables vars⟩

/-- Association-list lookup over cache keys. -/
def entryLookup (l : List (CacheKey × PromiseState)) (k : CacheKey) :
    Option PromiseState :=
  match l with
  | [] => none
  | (k₂, v) :: rest => if k₂ = k then some v else entryLookup rest k

/-- Modelled from the spec: the fetch cache state — the entry per key,
plus the log of keys for which the injected execute function has been
invoked. -/
structure FetchCache where
  entries : List (CacheKey × PromiseState)
  networkCalls : List CacheKey
deriving DecidableEq, Repr

/-- Modelled from the spec: `get_or_create(artifact, variables)`
(cache.ts, `getOrCreateCacheForArtifact`, not among the sources) — an
entry that already exists for the key is returned unchanged, in-flight or
resolved; otherwise the execute function is invoked once and a pending
wrapper is stored under the key. -/
def getOrCreateCacheForArtifact (c : FetchCache) (artifactId : String)
    (vars : Variables) : PromiseState × FetchCache :=
  let key := cacheKey artifactId vars
  match entryLookup c.entries key with
  | some st => (st, c)
  | none =>
      (.pending,
        { entries := (key, .pending) :: c.entries,
          networkCalls := c.networkCalls ++ [key] })

/-- Remove every entry stored under a key. -/
def evictEntry (l : List (CacheKey × PromiseState)) (k : CacheKey) :
    List (CacheKey × PromiseState) :=
  l.filter (fun p => decide (¬ p.1 = k))

/-- Modelled from the spec: when the wrapper for a key transitions to the
rejected state, the cache entry is evicted so a subsequent request retries
rather than replaying the stored failure. -/
def onNetworkReject (c : FetchCache) (artifactId : String) (vars : Variables) :
    FetchCache :=
  { c with entries := evictEntry c.entries (cacheKey artifactId vars) }

/-! ## Retention and garbage collection (modelled from the spec) -/

/-- The collector's view of the store: a table of record ids with their
slot lists, since the collector iterates over all stored records. -/
abbrev StoreTable := List (DataId × List (StorageKey × StoreValue))

/-- The link targets held in one record. -/
def recordLinks (rec : List (StorageKey × StoreValue)) : List DataId :=
  rec.foldr (fun p acc =>
    match p.2 with
    | .link i => i :: acc
    | .links is => is ++ acc
    | _ => acc) []

/-- The ids one Link step away from an id. -/
def succs (t : StoreTable) (id : DataId) : List DataId :=
  match alistLookup t id with
  | some rec => recordLinks rec
  | none => []

/-- One traversal round: add the unvisited link targets of the set. -/
def stepSet (t : StoreTable) (r : List DataId) : List DataId :=
  r ++ (((r.map (succs t)).flatten).dedup).filter (fun x => decide (x ∉ r))

/-- Iterated traversal rounds. -/
def iterSet (t : StoreTable) : Nat → List DataId → List DataId
  | 0, r => r
  | n + 1, r => iterSet t n (stepSet t r)

/-- Every link target stored anywhere in the table. -/
def allLinkTargets (t : StoreTable) : List DataId :=
  ((t.map (fun e => recordLinks e.2)).flatten).dedup

/-- Modelled from the spec: the reachable set — traversal of Links from
the retained roots, iterated enough rounds that it has stabilized. -/
def reachableIds (t : StoreTable) (roots : List DataId) : List DataId :=
  iterSet t (roots.dedup ++ allLinkTargets t).length roots.dedup

/-- Modelled from the spec: the retained query set — reference counts on
root ids; only entries with a positive count are kept. -/
abbrev RetainedQueries := List (DataId × Nat)

def refcountOf (r : RetainedQueries) (id : DataId) : Nat :=
  (alistLookup r id).getD 0

/-- Replace the count stored for an id. -/
def setRefcount (r : RetainedQueries) (id : DataId) (n : Nat) : RetainedQueries :=
  match r with
  | [] => [(id, n)]
  | (id₂, m) :: rest =>
      if id₂ = id then (id₂, n) :: rest else (id₂, m) :: setRefcount rest id n

/-- Modelled from the spec: `retain(rootId)` increments the refcount for
the root, creating the entry at refcount one if absent. -/
def retainQuery (r : RetainedQueries) (id : DataId) : RetainedQueries :=
  match alistLookup r id with
  | some n => setRefcount r id (n + 1)
  | none => r ++ [(id, 1)]

/-- Modelled from the spec: `release(rootId)` decrements the refcount and
removes the entry when it reaches zero. -/
def unretainQuery (r : RetainedQueries) (id : DataId) : RetainedQueries :=
  match alistLookup r id with
  | some n =>
      if n ≤ 1 then r.filter (fun p => decide (¬ p.1 = id))
      else setRefcount r id (n - 1)
  | none => r

/-- One retention operation issued by a consumer. -/
inductive RetentionOp where
  | retain (id : DataId)
  | release (id : DataId)
deriving DecidableEq, Repr

/-- Apply a sequence of retain/release operations. -/
def applyRetentionOps (ops : List RetentionOp) (r : RetainedQueries) :
    RetainedQueries :=
  ops.foldl (fun acc op =>
    match op with
    | .retain id => retainQuery acc id
    | .release id => unretainQuery acc id) r

/-- Modelled from the spec: `collect()` deletes every stored record whose
id is not in the reachable set of the currently retained roots. -/
def garbageCollectEnvironment (retained : RetainedQueries) (t : StoreTable) :
    StoreTable :=
  let keep := reachableIds t (retained.map (fun p => p.1))
  t.filter (fun e => decide (e.1 ∈ keep))

/-- Reachability via Links from one id to another in a store table. -/
inductive Reaches (t : StoreTable) : DataId → DataId → Prop
  | refl (id : DataId) : Reaches t id id
  | step {a b c : DataId} : Reaches t a b → c ∈ succs t b → Reaches t a c

/-! ## Entrypoints and the hook layer (entrypoint.ts and index.ts) -/

/-- A reader artifact, opaque to the hook layer (reader.ts). -/
structure ReaderArtifact where
  artifactId : String
deriving DecidableEq, Repr

/-- A refetch query artifact wrapper (entrypoint.ts,
`RefetchQueryArtifactWrapper`), carried through opaquely. -/
structure RefetchQueryArtifactWrapper where
  queryText : String
  allowedVariables : List String
deriving DecidableEq, Repr

/-- An isograph entrypoint (entrypoint.ts, `IsographEntrypoint`). -/
structure IsographEntrypoint where
  queryText : String
  normalizationAst : NormalizationAst
  readerArtifact : ReaderArtifact
  nestedRefetchQueries : List RefetchQueryArtifactWrapper

/-- A fragment reference (index.ts, `FragmentReference`). -/
structure FragmentReference where
  readerArtifact : ReaderArtifact
  root : DataId
  variableBindings : Variables
  nestedRefetchQueries : List RefetchQueryArtifactWrapper
deriving DecidableEq, Repr

/-- A runtime value as the entrypoint assertion sees it: a function (an
unbuilt iso literal), an object carrying a set of property names, or a
primitive. -/
inductive JsValue where
  | function
  | object (properties : List String)
  | string (s : String)
  | number (n : Int)
  | boolean (b : Bool)
  | nullValue
deriving DecidableEq, Repr

def isFunction : JsValue → Bool
  | .function => true
  | _ => false

/-- Whether an object value carries all the entrypoint properties
(entrypoint.ts, `IsographEntrypoint`). -/
def isWellFormedEntrypointObject : JsValue → Bool
  | .object props =>
      props.contains "kind" && props.contains "queryText"
        && props.contains "normalizationAst" && props.contains "readerArtifact"
        && props.contains "nestedRefetchQueries"
  | _ => false

/-- entrypoint.ts, `assertIsEntrypoint`: throws when the argument is a
function; every other value passes without further validation. -/
def assertIsEntrypoint : JsValue → Except String Unit
  | .function => .error "Not a string"
  | _ => .ok ()

/-- The argument `useLazyReference` receives: an entrypoint, or the unbuilt
function form of an iso literal. -/
inductive EntrypointArgument where
  | entrypoint (e : IsographEntrypoint)
  | functionLiteral

/-- index.ts, `useLazyReference`: asserts the argument is an entrypoint
(rejecting the function form), obtains or creates the fetch cache entry —
a side effect on the environment, modelled by the fetch cache above, which
does not contribute to the returned value — and returns a query reference
rooted at `ROOT_ID`, carrying the entrypoint reader artifact, the caller
variables and the entrypoint nested refetch queries. -/
def useLazyReference (arg : EntrypointArgument) (variableBindings : Variables) :
    Except String FragmentReference :=
  match arg with
  | .functionLiteral => .error "Not a string"
  | .entrypoint e =>
      .ok { readerArtifact := e.readerArtifact,
            root := ROOT_ID,
            variableBindings := variableBindings,
            nestedRefetchQueries := e.nestedRefetchQueries }

/-- A stored data value as index.ts types the argument of `assertLink`:
null or undefined, a primitive, a non-array object (a link), or an
array. -/
inductive DataTypeValue where
  | nullValue
  | undefinedValue
  | string (s : String)
  | number (n : Int)
  | boolean (b : Bool)
  | object (link : DataId)
  | array (elems : List DataTypeValue)

def isNullish : DataTypeValue → Bool
  | .nullValue => true
  | .undefinedValue => true
  | _ => false

def isNonArrayObject : DataTypeValue → Bool
  | .object _ => true
  | _ => false

/-- index.ts, `assertLink`: an array throws, null and undefined resolve to
a null link, any other object is returned as the link itself, and every
remaining primitive throws an invalid-link error. -/
def assertLink : DataTypeValue → Except String (Option DataTypeValue)
  | .array _ => .error "Unexpected array"
  | .nullValue => .ok none
  | .undefinedValue => .ok none
  | .object l => .ok (some (.object l))
  | .string _ => .error "Invalid link"
  | .number _ => .error "Invalid link"
  | .boolean _ => .error "Invalid link"

/-- A concrete store used to exhibit reads against missing data: the root
record links a to A, A links b to B, and the B record exists but has no
slot f. -/
def missingFieldExampleStore : IsographStore :=
  applyWrites
    [⟨ROOT_ID, ⟨"a", []⟩, .link "A"⟩,
     ⟨"A", ⟨"b", []⟩, .link "B"⟩,
     ⟨"B", ⟨"x", []⟩, .scalar "1"⟩] emptyStore

/-! ## Store characterization lemmas -/

theorem lastWriteTo_foldl_init (ws : List WriteOp) (id : DataId) (k : StorageKey)
    (a : Option StoreValue) :
    ws.foldl (fun acc w => if w.id = id ∧ w.key = k then some w.value else acc) a
      = (lastWriteTo ws id k).or a := by
  induction ws generalizing a with
  | nil => simp [lastWriteTo]
  | cons w ws ih =>
      simp only [lastWriteTo, List.foldl_cons]
      by_cases h : w.id = id ∧ w.key = k
      · rw [if_pos h, if_pos h, ih (some w.value)]
        cases lastWriteTo ws id k <;> rfl
      · rw [if_neg h, if_neg h, ih a, ih none, Option.or_none]

theorem lastWriteTo_cons (w : WriteOp) (ws : List WriteOp) (id : DataId) (k : StorageKey) :
    lastWriteTo (w :: ws) id k
      = (lastWriteTo ws id k).or
          (if w.id = id ∧ w.key = k then some w.value else none) := by
  simp only [lastWriteTo, List.foldl_cons]
  rw [lastWriteTo_foldl_init]
  rfl

theorem lastWriteTo_of_not_touches {ws : List WriteOp} {id : DataId}
    (h : touchesId ws id = false) (k : StorageKey) : lastWriteTo ws id k = none := by
  induction ws with
  | nil => rfl
  | cons w ws ih =>
      simp only [touchesId, List.any_cons, Bool.or_eq_false_iff, beq_eq_false_iff_ne,
        ne_eq] at h
      rw [lastWriteTo_cons, ih (by simpa [touchesId] using h.2)]
      rw [if_neg (by intro hc; exact h.1 hc.1)]
      rfl

theorem writeSlot_apply_self (s : IsographStore) (w : WriteOp) :
    writeSlot s w w.id
      = some (fun k => if k = w.key then some w.value
          else ((s w.id).getD (fun _ => none)) k) := by
  simp [writeSlot]

theorem writeSlot_apply_ne {s : IsographStore} {w : WriteOp} {id : DataId}
    (h : ¬ id = w.id) : writeSlot s w id = s id := by
  simp [writeSlot, h]

theorem optionSomeOr {α : Type} (a : α) (b : Option α) : (Option.some a).or b = some a := rfl

/-- The record an applied write sequence produces at one id: untouched ids
keep their record, touched ids hold the last written value in each touched
slot on top of the previous record. -/
theorem applyWrites_apply (ws : List WriteOp) (s : IsographStore) (id : DataId) :
    applyWrites ws s id =
      if touchesId ws id then
        some (fun k => (lastWriteTo ws id k).or (((s id).getD (fun _ => none)) k))
      else s id := by
  induction ws generalizing s with
  | nil => simp [applyWrites, touchesId, lastWriteTo]
  | cons w ws ih =>
      have hstep : applyWrites (w :: ws) s = applyWrites ws (writeSlot s w) := rfl
      rw [hstep, ih]
      by_cases hid : w.id = id
      · subst hid
        have htid : touchesId (w :: ws) w.id = true := by simp [touchesId]
        rw [htid, if_pos rfl]
        by_cases hts : touchesId ws w.id = true
        · rw [if_pos hts, writeSlot_apply_self]
          congr 1
          funext k
          rw [lastWriteTo_cons]
          simp only [Option.getD_some]
          by_cases hk : k = w.key
          · subst hk
            cases lastWriteTo ws w.id w.key <;> simp [optionSomeOr]
          · simp [hk, Ne.symm hk, Option.or_none]
        · rw [if_neg hts, writeSlot_apply_self]
          congr 1
          funext k
          rw [lastWriteTo_cons,
            lastWriteTo_of_not_touches (by simpa using hts) k, Option.none_or]
          by_cases hk : k = w.key
          · subst hk
            simp [optionSomeOr]
          · simp [hk, Ne.symm hk]
      · have hws : writeSlot s w id = s id := writeSlot_apply_ne (by intro hc; exact hid hc.symm)
        have htc : touchesId (w :: ws) id = touchesId ws id := by
          simp [touchesId, List.any_cons, hid]
        rw [hws, htc]
        by_cases hts : touchesId ws id = true
        · rw [if_pos hts, if_pos hts]
          congr 1
          funext k
          rw [lastWriteTo_cons, if_neg (by intro hc; exact hid hc.1), Option.or_none]
        · rw [if_neg hts, if_neg hts]

/-- The value an applied write sequence leaves in one slot: the last write
to that slot if there is one, else the previous value. -/
theorem slotVal_applyWrites (ws : List WriteOp) (s : IsographStore)
    (id : DataId) (k : StorageKey) :
    slotVal (applyWrites ws s) id k = (lastWriteTo ws id k).or (slotVal s id k) := by
  unfold slotVal
  rw [applyWrites_apply]
  by_cases ht : touchesId ws id = true
  · rw [if_pos ht]
    cases hs : s id with
    | none => simp [hs]
    | some r => simp [hs]
  · rw [if_neg ht, lastWriteTo_of_not_touches (by simpa using ht) k, Option.none_or]

/-- Applying the same write sequence twice leaves the store where one
application put it. -/
theorem applyWrites_applyWrites_self (ws : List WriteOp) (s : IsographStore) :
    applyWrites ws (applyWrites ws s) = applyWrites ws s := by
  funext id
  rw [applyWrites_apply ws (applyWrites ws s) id, applyWrites_apply ws s id]
  by_cases ht : touchesId ws id = true
  · simp only [ht, if_true, Option.getD_some]
    congr 1
    funext k
    cases hlw : lastWriteTo ws id k with
    | none => simp
    | some v => rfl
  · have hf : touchesId ws id = false := by simpa using ht
    simp only [hf, Bool.false_eq_true, if_false]

example :
    collectNodes [] [.scalar "name" none] "U" [("name", .scalar "Ann")]
      = [⟨"U", ⟨"name", []⟩, .scalar "Ann"⟩] := rfl

example :
    collectNodes [] [.linked "user" none [.scalar "id" none]] ROOT_ID
        [("user", .obj [("id", .scalar "1")])]
      = [⟨"1", ⟨"id", []⟩, .scalar "1"⟩, ⟨ROOT_ID, ⟨"user", []⟩, .link "1"⟩] := by
  decide

example :
    readQuery (normalizeResponse [] [.linked "user" none [.scalar "id" none, .scalar "name" none]]
        [("user", .obj [("id", .scalar "1"), ("name", .scalar "Ann")])] emptyStore) []
        (readSpecOf [.linked "user" none [.scalar "id" none, .scalar "name" none]])
      = .ok [("user", .obj [("id", .scalar "1"), ("name", .scalar "Ann")])] := by
  decide

/-! ## Claim theorems: idempotence and merge -/

/-- C4: for every response R and normalization spec S, normalizing R twice
in succession produces a store state identical to normalizing R once. -/
theorem normalizeResponse_idempotent (vars : Variables) (ast : NormalizationAst)
    (fields : List (String × ResponseValue)) (s : IsographStore) :
    normalizeResponse vars ast fields (normalizeResponse vars ast fields s)
      = normalizeResponse vars ast fields s :=
  applyWrites_applyWrites_self (collectNodes vars ast ROOT_ID fields) s

/-- C3: normalizing response A and then response B describing the same
entity id with disjoint field sets yields a record holding the union of
the fields of A and B — every A slot B does not touch survives, every B
slot is present — and normalizing never discards a previously known slot
absent from the newer response. -/
theorem normalize_merge_preserves_fields (vars₁ vars₂ : Variables)
    (S₁ S₂ : NormalizationAst) (A B : List (String × ResponseValue))
    (s : IsographStore) (id : DataId) (k : StorageKey) (v : StoreValue) :
    (lastWriteTo (collectNodes vars₁ S₁ ROOT_ID A) id k = some v →
      lastWriteTo (collectNodes vars₂ S₂ ROOT_ID B) id k = none →
      slotVal (normalizeResponse vars₂ S₂ B (normalizeResponse vars₁ S₁ A s)) id k
        = some v) ∧
    (lastWriteTo (collectNodes vars₂ S₂ ROOT_ID B) id k = some v →
      slotVal (normalizeResponse vars₂ S₂ B (normalizeResponse vars₁ S₁ A s)) id k
        = some v) ∧
    ((slotVal (normalizeResponse vars₁ S₁ A s) id k).isSome = true →
      (slotVal (normalizeResponse vars₂ S₂ B (normalizeResponse vars₁ S₁ A s)) id k).isSome
        = true) := by
  refine ⟨?_, ?_, ?_⟩
  · intro h₁ h₂
    simp only [normalizeResponse]
    rw [slotVal_applyWrites, h₂, Option.none_or, slotVal_applyWrites, h₁]
    rfl
  · intro h₁
    simp only [normalizeResponse]
    rw [slotVal_applyWrites, h₁]
    rfl
  · intro h₁
    simp only [normalizeResponse] at h₁ ⊢
    rw [slotVal_applyWrites]
    cases hB : lastWriteTo (collectNodes vars₂ S₂ ROOT_ID B) id k with
    | none => rw [Option.none_or]; exact h₁
    | some v₂ => rfl

/-- Witness for the merge theorem at the spec scenario: user 1 keeps the
name written by response A after response B adds the email. -/
theorem normalize_merge_preserves_fields_witness :
    slotVal
      (normalizeResponse []
        [.linked "user" none [.scalar "id" none, .scalar "email" none]]
        [("user", .obj [("id", .scalar "1"), ("email", .scalar "a.at.x")])]
        (normalizeResponse []
          [.linked "user" none [.scalar "id" none, .scalar "name" none]]
          [("user", .obj [("id", .scalar "1"), ("name", .scalar "Ann")])]
          emptyStore))
      "1" ⟨"name", []⟩ = some (.scalar "Ann") :=
  (normalize_merge_preserves_fields [] []
      [.linked "user" none [.scalar "id" none, .scalar "name" none]]
      [.linked "user" none [.scalar "id" none, .scalar "email" none]]
      [("user", .obj [("id", .scalar "1"), ("name", .scalar "Ann")])]
      [("user", .obj [("id", .scalar "1"), ("email", .scalar "a.at.x")])]
      emptyStore "1" ⟨"name", []⟩ (.scalar "Ann")).1 (by decide) (by decide)

/-! ## Claim theorems: fetch cache -/

/-- C2: two consecutive requests with identical artifact and variables
issue exactly one execute call — an existing entry is returned unchanged
whatever its state, a fresh key logs exactly one network call, and the
second request returns the stored entry without changing the cache. -/
theorem getOrCreate_dedup (c : FetchCache) (artifactId : String) (vars : Variables) :
    (getOrCreateCacheForArtifact
        (getOrCreateCacheForArtifact c artifactId vars).2 artifactId vars).2
      = (getOrCreateCacheForArtifact c artifactId vars).2 ∧
    entryLookup ((getOrCreateCacheForArtifact c artifactId vars).2).entries
        (cacheKey artifactId vars)
      = some (getOrCreateCacheForArtifact
          (getOrCreateCacheForArtifact c artifactId vars).2 artifactId vars).1 ∧
    (∀ st, entryLookup c.entries (cacheKey artifactId vars) = some st →
      getOrCreateCacheForArtifact c artifactId vars = (st, c)) ∧
    (entryLookup c.entries (cacheKey artifactId vars) = none →
      ((getOrCreateCacheForArtifact c artifactId vars).2).networkCalls
        = c.networkCalls ++ [cacheKey artifactId vars]) := by
  cases h : entryLookup c.entries (cacheKey artifactId vars) with
  | some st => simp [getOrCreateCacheForArtifact, h]
  | none => simp [getOrCreateCacheForArtifact, h, entryLookup]

/-- Witness for the dedup theorem: a fresh cache logs exactly the one
execute call for the requested key. -/
theorem getOrCreate_dedup_witness :
    ((getOrCreateCacheForArtifact ⟨[], []⟩ "Q" [("x", "1")]).2).networkCalls
      = ([] : List CacheKey) ++ [cacheKey "Q" [("x", "1")]] :=
  (getOrCreate_dedup ⟨[], []⟩ "Q" [("x", "1")]).2.2.2 (by decide)

theorem entryLookup_evictEntry (l : List (CacheKey × PromiseState)) (k : CacheKey) :
    entryLookup (evictEntry l k) k = none := by
  induction l with
  | nil => rfl
  | cons p rest ih =>
      by_cases h : p.1 = k
      · simpa [evictEntry, List.filter_cons, h] using ih
      · simpa [evictEntry, List.filter_cons, h, entryLookup] using ih

/-- C8: when the wrapper for a key transitions to the rejected state the
cache entry is evicted, and the next request for the same key invokes the
execute function again instead of replaying the stored failure. -/
theorem reject_evicts_and_retries (c : FetchCache) (artifactId : String)
    (vars : Variables) :
    entryLookup ((onNetworkReject c artifactId vars).entries)
        (cacheKey artifactId vars) = none ∧
    ((getOrCreateCacheForArtifact (onNetworkReject c artifactId vars)
        artifactId vars).2).networkCalls
      = (onNetworkReject c artifactId vars).networkCalls
          ++ [cacheKey artifactId vars] := by
  have hl : entryLookup ((onNetworkReject c artifactId vars).entries)
      (cacheKey artifactId vars) = none :=
    entryLookup_evictEntry c.entries (cacheKey artifactId vars)
  refine ⟨hl, ?_⟩
  simp [getOrCreateCacheForArtifact, hl]

/-! ## Claim theorems: the hook layer -/

/-- C7: `assertLink` resolves null and undefined to a null link, returns a
non-array object — well-formed or not — as the link itself, and raises
exactly on every array and every non-null non-object input; being a pure
resolver-side check, storing a value never runs it. -/
theorem assertLink_characterization (v : DataTypeValue) :
    (assertLink v = .ok none ↔ isNullish v = true) ∧
    (assertLink v = .ok (some v) ↔ isNonArrayObject v = true) ∧
    ((assertLink v).isOk = false ↔
      (isNullish v = false ∧ isNonArrayObject v = false)) := by
  cases v <;> simp [assertLink, isNullish, isNonArrayObject, Except.isOk, Except.toBool]

/-- C9: `assertIsEntrypoint` throws exactly when its argument is a
function, and any non-function value passes without further validation —
in particular a plain object carrying none of the entrypoint properties. -/
theorem assertIsEntrypoint_characterization (v : JsValue) :
    ((assertIsEntrypoint v).isOk = false ↔ isFunction v = true) ∧
    (isWellFormedEntrypointObject (JsValue.object []) = false ∧
      assertIsEntrypoint (JsValue.object []) = .ok ()) := by
  refine ⟨?_, rfl, rfl⟩
  cases v <;> simp [assertIsEntrypoint, isFunction, Except.isOk, Except.toBool]

/-- C10: `useLazyReference` returns, for every entrypoint and variable
mapping, the fragment reference rooted at `ROOT_ID` that carries the
entrypoint reader artifact, the caller variables and the entrypoint nested
refetch queries unchanged; and every reference it can return at all is
rooted at `ROOT_ID`. -/
theorem useLazyReference_root (e : IsographEntrypoint) (vars : Variables) :
    useLazyReference (.entrypoint e) vars
      = .ok ⟨e.readerArtifact, ROOT_ID, vars, e.nestedRefetchQueries⟩ ∧
    (∀ (arg : EntrypointArgument) (fr : FragmentReference),
      useLazyReference arg vars = .ok fr → fr.root = ROOT_ID) := by
  refine ⟨rfl, ?_⟩
  intro arg fr h
  cases arg with
  | functionLiteral => exact absurd h (by simp [useLazyReference])
  | entrypoint e₂ =>
      simp only [useLazyReference, Except.ok.injEq] at h
      rw [← h]

/-- Witness for the lazy reference theorem at a concrete entrypoint. -/
theorem useLazyReference_root_witness :
    (FragmentReference.mk ⟨"R"⟩ ROOT_ID [] []).root = ROOT_ID :=
  (useLazyReference_root ⟨"Q", [], ⟨"R"⟩, []⟩ []).2
    (.entrypoint ⟨"Q", [], ⟨"R"⟩, []⟩) ⟨⟨"R"⟩, ROOT_ID, [], []⟩ rfl

/-! ## Claim theorems: missing-path precision -/

/-- C6: reading a spec that needs field f at nested path a.b.f against a
store whose slot for f is missing fails with MissingData "a.b.f" — the
first missing path encountered — and evaluation short-circuits, returning
no partial result, whatever selections follow f. -/
theorem read_missing_path (store : IsographStore) (vars : Variables)
    (idA idB : DataId) (rest : List ReaderAstNode)
    (ha : slotVal store ROOT_ID ⟨"a", []⟩ = some (.link idA))
    (hb : slotVal store idA ⟨"b", []⟩ = some (.link idB))
    (hf : slotVal store idB ⟨"f", []⟩ = none) :
    readQuery store vars
        [.linked "a" none [.linked "b" none (.scalar "f" none :: rest)]]
      = .error (.missingData "a.b.f") := by
  have hp : pathString ["a", "b", "f"] = "a.b.f" := rfl
  simp [readQuery, readNodes, readNode, storageKey, ha, hb, hf, hp]

/-- Witness for the missing-path theorem: a concrete store with the f slot
absent at B, read with a trailing sibling selection after f. -/
theorem read_missing_path_witness :
    readQuery missingFieldExampleStore []
        [.linked "a" none [.linked "b" none
          (.scalar "f" none :: [.scalar "g" none])]]
      = .error (.missingData "a.b.f") :=
  read_missing_path missingFieldExampleStore [] "A" "B" [.scalar "g" none]
    (by decide) (by decide) (by decide)

/-! ## Garbage collection lemmas -/

theorem subset_stepSet (t : StoreTable) (r : List DataId) : r ⊆ stepSet t r :=
  fun _ h => List.mem_append_left _ h

theorem stepSet_nodup (t : StoreTable) {r : List DataId} (h : r.Nodup) :
    (stepSet t r).Nodup := by
  refine List.Nodup.append h (List.Nodup.filter _ (List.nodup_dedup _)) ?_
  intro a ha hb
  rcases List.mem_filter.mp hb with ⟨_, hp⟩
  simp only [decide_eq_true_eq] at hp
  exact hp ha

theorem alistLookup_entry_mem {β : Type} {l : List (String × β)} {k : String} {v : β}
    (h : alistLookup l k = some v) : ∃ e ∈ l, e.2 = v := by
  induction l with
  | nil => cases h
  | cons p rest ih =>
      obtain ⟨k₂, v₂⟩ := p
      by_cases hk : k₂ = k
      · simp only [alistLookup, if_pos hk, Option.some.injEq] at h
        exact ⟨(k₂, v₂), List.mem_cons_self _ _, h⟩
      · simp only [alistLookup, if_neg hk] at h
        rcases ih h with ⟨e, he, hv⟩
        exact ⟨e, List.mem_cons_of_mem _ he, hv⟩

theorem alistLookup_mem_keys {β : Type} {l : List (String × β)} {k : String} {v : β}
    (h : alistLookup l k = some v) : k ∈ l.map (fun p => p.1) := by
  induction l with
  | nil => cases h
  | cons p rest ih =>
      obtain ⟨k₂, v₂⟩ := p
      by_cases hk : k₂ = k
      · subst hk
        simp
      · simp only [alistLookup, if_neg hk] at h
        exact List.mem_cons_of_mem _ (ih h)

theorem succs_subset_allLinkTargets (t : StoreTable) (x : DataId) :
    succs t x ⊆ allLinkTargets t := by
  intro a ha
  unfold succs at ha
  cases hl : alistLookup t x with
  | none => rw [hl] at ha; cases ha
  | some rec =>
      rw [hl] at ha
      rcases alistLookup_entry_mem hl with ⟨e, he, hrec⟩
      unfold allLinkTargets
      apply List.mem_dedup.mpr
      apply List.mem_flatten.mpr
      refine ⟨recordLinks e.2, List.mem_map.mpr ⟨e, he, rfl⟩, ?_⟩
      rw [hrec]
      exact ha

theorem stepSet_subset {t : StoreTable} {r u : List DataId}
    (hru : r ⊆ u) (hu : allLinkTargets t ⊆ u) : stepSet t r ⊆ u := by
  intro a ha
  rcases List.mem_append.mp ha with h | h
  · exact hru h
  · rcases List.mem_filter.mp h with ⟨hmem, _⟩
    rcases List.mem_flatten.mp (List.mem_dedup.mp hmem) with ⟨l, hl, hal⟩
    rcases List.mem_map.mp hl with ⟨x, _, rfl⟩
    exact hu (succs_subset_allLinkTargets t x hal)

theorem stepSet_closed {t : StoreTable} {r : List DataId} (h : stepSet t r = r) :
    ∀ x ∈ r, succs t x ⊆ r := by
  intro x hx a ha
  have hlen := congrArg List.length h
  rw [stepSet, List.length_append] at hlen
  have h0 : ((((r.map (succs t)).flatten).dedup).filter
      (fun y => decide (y ∉ r))).length = 0 := by omega
  have hnil : (((r.map (succs t)).flatten).dedup).filter
      (fun y => decide (y ∉ r)) = [] := List.eq_nil_of_length_eq_zero h0
  by_contra hna
  have hmem : a ∈ (((r.map (succs t)).flatten).dedup).filter
      (fun y => decide (y ∉ r)) := by
    apply List.mem_filter.mpr
    refine ⟨List.mem_dedup.mpr
      (List.mem_flatten.mpr ⟨succs t x, List.mem_map.mpr ⟨x, hx, rfl⟩, ha⟩), ?_⟩
    simpa using hna
  rw [hnil] at hmem
  cases hmem

theorem iterSet_stable {t : StoreTable} {r : List DataId} (h : stepSet t r = r) :
    ∀ n, iterSet t n r = r
  | 0 => rfl
  | n + 1 => by
      show iterSet t n (stepSet t r) = r
      rw [h]
      exact iterSet_stable h n

theorem subset_iterSet (t : StoreTable) :
    ∀ (n : Nat) (r : List DataId), r ⊆ iterSet t n r
  | 0, _ => fun _ h => h
  | n + 1, r => fun _ h =>
      subset_iterSet t n (stepSet t r) (subset_stepSet t r h)

theorem length_lt_of_stepSet_ne {t : StoreTable} {r : List DataId}
    (h : ¬ stepSet t r = r) : r.length < (stepSet t r).length := by
  rw [stepSet] at h
  rw [stepSet, List.length_append]
  rcases Nat.eq_zero_or_pos ((((r.map (succs t)).flatten).dedup).filter
      (fun y => decide (y ∉ r))).length with h0 | hpos
  · exfalso
    apply h
    rw [List.eq_nil_of_length_eq_zero h0, List.append_nil]
  · omega

theorem stepSet_iterSet_stable (t : StoreTable) (u : List DataId)
    (hu : allLinkTargets t ⊆ u) :
    ∀ (fuel : Nat) (r : List DataId), r.Nodup → r ⊆ u →
      u.length ≤ r.length + fuel →
      stepSet t (iterSet t fuel r) = iterSet t fuel r
  | 0, r => fun hnd hru hlen => by
      show stepSet t r = r
      by_contra hne
      have hlt := length_lt_of_stepSet_ne hne
      have hsub : stepSet t r ⊆ u := stepSet_subset hru hu
      have hnd₂ := stepSet_nodup t hnd
      have hle := (hnd₂.subperm hsub).length_le
      omega
  | fuel + 1, r => fun hnd hru hlen => by
      by_cases hst : stepSet t r = r
      · have hall : iterSet t (fuel + 1) r = r := iterSet_stable hst (fuel + 1)
        rw [hall]
        exact hst
      · have hgrow := length_lt_of_stepSet_ne hst
        show stepSet t (iterSet t fuel (stepSet t r)) = iterSet t fuel (stepSet t r)
        exact stepSet_iterSet_stable t u hu fuel (stepSet t r) (stepSet_nodup t hnd)
          (stepSet_subset hru hu) (by omega)

theorem mem_of_reaches {t : StoreTable} {R : List DataId}
    (hclosed : ∀ x ∈ R, succs t x ⊆ R) {a b : DataId}
    (h : Reaches t a b) (ha : a ∈ R) : b ∈ R := by
  induction h with
  | refl => exact ha
  | step hab hmem ih => exact hclosed _ ih hmem

theorem reachableIds_closed (t : StoreTable) (roots : List DataId) :
    ∀ x ∈ reachableIds t roots, succs t x ⊆ reachableIds t roots := by
  apply stepSet_closed
  show stepSet t (iterSet t (roots.dedup ++ allLinkTargets t).length roots.dedup)
      = iterSet t (roots.dedup ++ allLinkTargets t).length roots.dedup
  exact stepSet_iterSet_stable t (roots.dedup ++ allLinkTargets t)
    (List.subset_append_right _ _) (roots.dedup ++ allLinkTargets t).length
    roots.dedup (List.nodup_dedup roots) (List.subset_append_left _ _)
    (by omega)

theorem mem_reachableIds {t : StoreTable} {roots : List DataId} {rootId id : DataId}
    (hroot : rootId ∈ roots) (h : Reaches t rootId id) :
    id ∈ reachableIds t roots := by
  apply mem_of_reaches (reachableIds_closed t roots) h
  exact subset_iterSet t _ roots.dedup (List.mem_dedup.mpr hroot)

theorem alistLookup_filter_of_mem {β : Type} (t : List (String × β))
    (keep : List String) {id : String} (hid : id ∈ keep) :
    alistLookup (t.filter (fun e => decide (e.1 ∈ keep))) id = alistLookup t id := by
  induction t with
  | nil => rfl
  | cons e rest ih =>
      obtain ⟨id₂, rec⟩ := e
      rw [List.filter_cons]
      by_cases hk : id₂ = id
      · subst hk
        rw [if_pos (by simpa using hid)]
        simp [alistLookup]
      · by_cases hkeep : id₂ ∈ keep
        · rw [if_pos (by simpa using hkeep)]
          simp only [alistLookup, if_neg hk]
          exact ih
        · rw [if_neg (by simpa using hkeep)]
          rw [ih]
          simp only [alistLookup, if_neg hk]

/-! ## Claim theorem: retention safety -/

/-- C5: for every sequence of retain and release operations, collect never
removes a record reachable via Links from the record of a root whose
refcount is positive, even when other roots that also referenced it have
been released: the record looks up unchanged after collection. -/
theorem collect_preserves_reachable (ops : List RetentionOp) (t : StoreTable)
    (rootId id : DataId)
    (hpos : 0 < refcountOf (applyRetentionOps ops []) rootId)
    (hreach : Reaches t rootId id) :
    alistLookup (garbageCollectEnvironment (applyRetentionOps ops []) t) id
      = alistLookup t id := by
  have hlook : ∃ n, alistLookup (applyRetentionOps ops []) rootId = some n := by
    cases h : alistLookup (applyRetentionOps ops []) rootId with
    | none =>
        rw [refcountOf, h] at hpos
        simp at hpos
    | some n => exact ⟨n, rfl⟩
  obtain ⟨n, hn⟩ := hlook
  have hmemroot : rootId ∈ (applyRetentionOps ops []).map (fun p => p.1) :=
    alistLookup_mem_keys hn
  have hkeep : id ∈ reachableIds t ((applyRetentionOps ops []).map (fun p => p.1)) :=
    mem_reachableIds hmemroot hreach
  simp only [garbageCollectEnvironment]
  exact alistLookup_filter_of_mem t _ hkeep

/-- Witness for retention safety: root r stays retained after a second
root s is retained and released, and the record c that r links to is kept
by collection. -/
theorem collect_preserves_reachable_witness :
    alistLookup
      (garbageCollectEnvironment
        (applyRetentionOps [.retain "r", .retain "s", .release "s"] [])
        [("r", [(⟨"x", []⟩, .link "c")]), ("c", []), ("d", [])])
      "c"
    = alistLookup
        ([("r", [(⟨"x", []⟩, .link "c")]), ("c", []), ("d", [])] : StoreTable)
        "c" :=
  collect_preserves_reachable [.retain "r", .retain "s", .release "s"]
    [("r", [(⟨"x", []⟩, .link "c")]), ("c", []), ("d", [])] "r" "c"
    (by decide)
    (Reaches.step (Reaches.refl "r") (by decide))

/-! ## Round-trip lemmas -/

theorem lastWriteTo_none_of_no_match {ws : List WriteOp} {id : DataId} {k : StorageKey}
    (h : ∀ x ∈ ws, ¬ (x.id = id ∧ x.key = k)) : lastWriteTo ws id k = none := by
  induction ws with
  | nil => rfl
  | cons u ws ih =>
      rw [lastWriteTo_cons, ih (fun x hx => h x (List.mem_cons_of_mem _ hx)),
        if_neg (h u (List.mem_cons_self _ _))]
      rfl

/-- When no slot is written twice, the last write to the slot of any
emitted write is that write itself. -/
theorem lastWriteTo_of_mem_nodup {ws : List WriteOp}
    (hnd : (slotsOf ws).Nodup) {w : WriteOp} (hw : w ∈ ws) :
    lastWriteTo ws w.id w.key = some w.value := by
  induction ws with
  | nil => cases hw
  | cons u ws ih =>
      have hnd₂ : (slotsOf ws).Nodup := (List.nodup_cons.mp hnd).2
      have hhead : (u.id, u.key) ∉ slotsOf ws := (List.nodup_cons.mp hnd).1
      rcases List.mem_cons.mp hw with rfl | hmem
      · have hnone : lastWriteTo ws w.id w.key = none := by
          apply lastWriteTo_none_of_no_match
          intro x hx hc
          apply hhead
          have : (x.id, x.key) ∈ slotsOf ws := List.mem_map.mpr ⟨x, hx, rfl⟩
          rw [hc.1, hc.2] at this
          exact this
        rw [lastWriteTo_cons, hnone, if_pos ⟨rfl, rfl⟩]
        rfl
      · rw [lastWriteTo_cons, ih hnd₂ hmem]
        rfl

/-- A slot value in the store built from a write sequence over the empty
store is exactly the last write to that slot. -/
theorem slotVal_of_writes {W : List WriteOp} {id : DataId} {k : StorageKey}
    {v : StoreValue} (h : lastWriteTo W id k = some v) :
    slotVal (applyWrites W emptyStore) id k = some v := by
  rw [slotVal_applyWrites, h]
  rfl

mutual

/-- Round-trip at one spec node: if the response validates and every write
this node emits is the last write to its slot, reading the corresponding
read spec node returns exactly the projection of the response. -/
theorem readNode_of_writes (W : List WriteOp) (vars : Variables) :
    ∀ (n : NormalizationAstNode) (id : DataId)
      (fields : List (String × ResponseValue)) (path : List String),
      validatesNode n fields = true →
      (∀ w ∈ collectNode vars n id fields,
        lastWriteTo W w.id w.key = some w.value) →
      readNode (applyWrites W emptyStore) vars (readSpecOfNode n) id path
        = .ok (projectNode n fields)
  | .scalar f args, id, fields, path => by
      intro hval hsub
      cases hlf : alistLookup fields f with
      | none =>
          have hw : lastWriteTo W id (storageKey vars f args) = some .null :=
            hsub ⟨id, storageKey vars f args, .null⟩ (by simp [collectNode, hlf])
          simp only [readSpecOfNode, readNode, slotVal_of_writes hw, projectNode, hlf]
      | some rv =>
          cases rv with
          | scalar s =>
              have hw : lastWriteTo W id (storageKey vars f args)
                  = some (.scalar s) :=
                hsub ⟨id, storageKey vars f args, .scalar s⟩ (by simp [collectNode, hlf])
              simp only [readSpecOfNode, readNode, slotVal_of_writes hw, projectNode, hlf]
          | null =>
              have hw : lastWriteTo W id (storageKey vars f args) = some .null :=
                hsub ⟨id, storageKey vars f args, .null⟩ (by simp [collectNode, hlf])
              simp only [readSpecOfNode, readNode, slotVal_of_writes hw, projectNode, hlf]
          | obj cf => simp [validatesNode, hlf] at hval
          | arr es => simp [validatesNode, hlf] at hval
  | .linked f args sels, id, fields, path => by
      intro hval hsub
      cases hlf : alistLookup fields f with
      | none =>
          have hw : lastWriteTo W id (storageKey vars f args) = some .null :=
            hsub ⟨id, storageKey vars f args, .null⟩ (by simp [collectNode, hlf])
          simp only [readSpecOfNode, readNode, slotVal_of_writes hw, projectNode, hlf]
      | some rv =>
          cases rv with
          | scalar s => simp [validatesNode, hlf] at hval
          | null =>
              have hw : lastWriteTo W id (storageKey vars f args) = some .null :=
                hsub ⟨id, storageKey vars f args, .null⟩ (by simp [collectNode, hlf])
              simp only [readSpecOfNode, readNode, slotVal_of_writes hw, projectNode, hlf]
          | obj cf =>
              have hvc : validatesNodes sels cf = true := by
                simpa [validatesNode, hlf] using hval
              have hlink : lastWriteTo W id (storageKey vars f args)
                  = some (.link (resolveId id (keyString (storageKey vars f args)) cf)) :=
                hsub ⟨id, storageKey vars f args,
                    .link (resolveId id (keyString (storageKey vars f args)) cf)⟩
                  (by simp [collectNode, hlf])
              have hchild := readNodes_of_writes W vars sels
                (resolveId id (keyString (storageKey vars f args)) cf) cf
                (path ++ [f]) hvc
                (fun w hw => hsub w (by
                  simp only [collectNode, hlf, List.mem_append]
                  exact Or.inl hw))
              simp only [readSpecOfNode, readNode, slotVal_of_writes hlink, hchild,
                projectNode, hlf]
          | arr es =>
              have hva : (es.all fun e =>
                  match e with
                  | .obj cf => validatesNodes sels cf
                  | _ => false) = true := by
                simpa [validatesNode, hlf] using hval
              have hlinks : lastWriteTo W id (storageKey vars f args)
                  = some (.links ((elemPairs id (keyString (storageKey vars f args)) 0 es).map
                      (fun p => p.1))) :=
                hsub ⟨id, storageKey vars f args,
                    .links ((elemPairs id (keyString (storageKey vars f args)) 0 es).map
                      (fun p => p.1))⟩
                  (by simp [collectNode, hlf])
              have hels := readElems_of_writes W vars sels id
                (keyString (storageKey vars f args)) 0 es (path ++ [f]) hva
                (fun w hw => hsub w (by
                  simp only [collectNode, hlf, List.mem_append]
                  exact Or.inl hw))
              simp only [readSpecOfNode, readNode, slotVal_of_writes hlinks, hels,
                projectNode, hlf]

termination_by n _ _ _ => (sizeOf n, 0)

/-- Round-trip over a selection list. -/
theorem readNodes_of_writes (W : List WriteOp) (vars : Variables) :
    ∀ (l : List NormalizationAstNode) (id : DataId)
      (fields : List (String × ResponseValue)) (path : List String),
      validatesNodes l fields = true →
      (∀ w ∈ collectNodes vars l id fields,
        lastWriteTo W w.id w.key = some w.value) →
      readNodes (applyWrites W emptyStore) vars (readSpecOf l) id path
        = .ok (projectNodes l fields)
  | [], _, _, _ => by
      intro hval hsub
      simp [readSpecOf, readNodes, projectNodes]
  | n :: rest, id, fields, path => by
      intro hval hsub
      rw [validatesNodes, Bool.and_eq_true] at hval
      have h₁ := readNode_of_writes W vars n id fields path hval.1
        (fun w hw => hsub w (by
          simp only [collectNodes, List.mem_append]
          exact Or.inl hw))
      have h₂ := readNodes_of_writes W vars rest id fields path hval.2
        (fun w hw => hsub w (by
          simp only [collectNodes, List.mem_append]
          exact Or.inr hw))
      simp only [readSpecOf, readNodes, h₁, h₂, projectNodes]

termination_by l _ _ _ => (sizeOf l, 0)

/-- Round-trip over the elements of a linked list value. -/
theorem readElems_of_writes (W : List WriteOp) (vars : Variables) :
    ∀ (sels : List NormalizationAstNode) (parentId : DataId) (base : String)
      (idx : Nat) (es : List ResponseValue) (path : List String),
      (es.all fun e =>
        match e with
        | .obj cf => validatesNodes sels cf
        | _ => false) = true →
      (∀ w ∈ ((elemPairs parentId base idx es).map
          (fun p => collectNodes vars sels p.1 p.2)).flatten,
        lastWriteTo W w.id w.key = some w.value) →
      readLinkList
          (fun cid => readNodes (applyWrites W emptyStore) vars (readSpecOf sels) cid path)
          ((elemPairs parentId base idx es).map (fun p => p.1))
        = .ok (es.map (fun e =>
            match e with
            | .obj cf => ReadResult.obj (projectNodes sels cf)
            | _ => ReadResult.null))
  | sels, _, _, _, [], _ => by
      intro hval hsub
      simp [elemPairs, readLinkList]
  | sels, parentId, base, idx, e :: rest, path => by
      intro hval hsub
      cases e with
      | obj cf =>
          rw [List.all_cons, Bool.and_eq_true] at hval
          have hchild := readNodes_of_writes W vars sels
            (resolveId parentId (base ++ "." ++ toString idx) cf) cf path hval.1
            (fun w hw => hsub w (by
              simp only [elemPairs, List.map_cons, List.flatten_cons, List.mem_append]
              exact Or.inl hw))
          have hrest := readElems_of_writes W vars sels parentId base (idx + 1) rest path
            hval.2
            (fun w hw => hsub w (by
              simp only [elemPairs, List.map_cons, List.flatten_cons, List.mem_append]
              exact Or.inr hw))
          simp only [elemPairs, List.map_cons, readLinkList, hchild, hrest, List.map_cons]
      | null => simp [List.all_cons] at hval
      | scalar s => simp [List.all_cons] at hval
      | arr es₂ => simp [List.all_cons] at hval
termination_by sels _ _ _ es _ => (sizeOf sels, es.length + 1)

end

/-! ## Claim theorems: read/normalize round-trip -/

/-- C1 (amended): for every response R that validates against a
normalization spec S, and whose normalization writes each store slot at
most once — no two parts of R resolve to the same entity id and storage
key — reading the corresponding read spec from the store produced by
normalizing R equals projecting R onto exactly the fields named in the
read spec. -/
theorem read_normalize_roundtrip (vars : Variables) (S : NormalizationAst)
    (R : List (String × ResponseValue))
    (hval : validatesNodes S R = true)
    (hnd : (slotsOf (collectNodes vars S ROOT_ID R)).Nodup) :
    readQuery (normalizeResponse vars S R emptyStore) vars (readSpecOf S)
      = .ok (projectNodes S R) := by
  show readNodes (applyWrites (collectNodes vars S ROOT_ID R) emptyStore) vars
      (readSpecOf S) ROOT_ID [] = .ok (projectNodes S R)
  exact readNodes_of_writes (collectNodes vars S ROOT_ID R) vars S ROOT_ID R []
    hval (fun w hw => lastWriteTo_of_mem_nodup hnd hw)

/-- Witness for the round-trip at the spec scenario: normalize user 1 with
id and name, read the corresponding spec back, and obtain the projection. -/
theorem read_normalize_roundtrip_witness :
    readQuery
        (normalizeResponse []
          [.linked "user" none [.scalar "id" none, .scalar "name" none]]
          [("user", .obj [("id", .scalar "1"), ("name", .scalar "Ann")])]
          emptyStore)
        []
        (readSpecOf [.linked "user" none [.scalar "id" none, .scalar "name" none]])
      = .ok (projectNodes
          [.linked "user" none [.scalar "id" none, .scalar "name" none]]
          [("user", .obj [("id", .scalar "1"), ("name", .scalar "Ann")])]) :=
  read_normalize_roundtrip []
    [.linked "user" none [.scalar "id" none, .scalar "name" none]]
    [("user", .obj [("id", .scalar "1"), ("name", .scalar "Ann")])]
    (by decide) (by decide)

/-- C1 counterexample: the round-trip fails for a validating response in
which two distinct fields resolve to the same entity id with conflicting
slot values — the second write clobbers the first, so reading disagrees
with projecting, although the response validates against the spec. -/
theorem read_normalize_roundtrip_counterexample :
    validatesNodes
        [.linked "a" none [.scalar "id" none, .scalar "x" none],
         .linked "b" none [.scalar "id" none, .scalar "x" none]]
        [("a", .obj [("id", .scalar "1"), ("x", .scalar "p")]),
         ("b", .obj [("id", .scalar "1"), ("x", .scalar "q")])] = true ∧
    readQuery
        (normalizeResponse []
          [.linked "a" none [.scalar "id" none, .scalar "x" none],
           .linked "b" none [.scalar "id" none, .scalar "x" none]]
          [("a", .obj [("id", .scalar "1"), ("x", .scalar "p")]),
           ("b", .obj [("id", .scalar "1"), ("x", .scalar "q")])]
          emptyStore)
        []
        (readSpecOf
          [.linked "a" none [.scalar "id" none, .scalar "x" none],
           .linked "b" none [.scalar "id" none, .scalar "x" none]])
      ≠ .ok (projectNodes
          [.linked "a" none [.scalar "id" none, .scalar "x" none],
           .linked "b" none [.scalar "id" none, .scalar "x" none]]
          [("a", .obj [("id", .scalar "1"), ("x", .scalar "p")]),
           ("b", .obj [("id", .scalar "1"), ("x", .scalar "q")])]) := by
  refine ⟨by decide, by decide⟩
